import Mathlib

set_option maxRecDepth 40000

/-!
Verification development for the py_mega-calc numerical core.

This file gives a shallow embedding of the arithmetic core of the
repository (src/calculators/primes.py, fibonacci.py, factorial.py and
src/core/estimator.py) and proves or refutes the frozen claims about it.

Modelling conventions:
* Python arbitrary-precision integers are `Nat`/`Int`; Python `%` and `//`
  on `Int` with a positive divisor agree with `Int.emod`/`Int.ediv`
  (both return a non-negative remainder), which is what Lean's `%`/`/`
  on `Int` denote.
* Python `while` loops become fuel-based structural recursions (the fuel
  is always provably sufficient where a claim needs it) or well-founded
  recursions with an explicit termination argument.
* `math.isqrt`, `math.factorial` and `int.bit_length` are runtime
  primitives of the Python platform; they are embedded by structural
  definitions with the same mathematical specification.
* float-valued helpers (`math.log` inside `_estimate_upper_bound` and the
  estimator's transforms) are abstracted as function parameters, so every
  theorem quantifies over all possible values those helpers could take;
  the estimator's float arithmetic is modelled exactly over `ℚ`.
* `random.randint`-driven code (`_miller_rabin_probabilistic`) is
  abstracted as a function parameter `prob`; all claims settled here only
  exercise inputs below `DETERMINISTIC_LIMIT`, where the source never
  reaches that code path.
-/

/-! ### Constants (primes.py lines 29-33) -/

def DETERMINISTIC_LIMIT : Nat := 3 * 10 ^ 24

def MILLER_RABIN_DEFAULT_ROUNDS : Nat := 40

def BAILLIE_PSW_FALLBACK_ROUNDS : Nat := 10

def SEGMENTED_SIEVE_THRESHOLD : Nat := 100000

def JACOBI_SEARCH_LIMIT : Nat := 20

/-! ### Small runtime primitives -/

/-- Model of Python `math.isqrt`: the greatest `k` with `k * k ≤ n`
(structural so that the kernel can evaluate it). -/
def isqrt (n : Nat) : Nat := Nat.findGreatest (fun k => k * k ≤ n) n

/-- Model of Python `range(start, stop, step)` (with `step > 0`) as the
list of its elements. -/
def pyRange (start stop step : Nat) : List Nat :=
  List.range' start ((stop - start + step - 1) / step) step

/-- Model of Python `int.bit_length`, auxiliary fuel recursion. -/
def bitLenAux : Nat → Nat → Nat
  | 0, _ => 0
  | fuel + 1, n => if n = 0 then 0 else bitLenAux fuel (n / 2) + 1

/-- Model of Python `int.bit_length` (number of binary digits, 0 for 0). -/
def bit_length (n : Nat) : Nat := bitLenAux (n + 1) n

/-- Decimal digit count of `n`, i.e. Python `len(str(n))` for a
non-negative integer: auxiliary fuel recursion. -/
def numDigitsAux : Nat → Nat → Nat
  | 0, _ => 1
  | fuel + 1, n => if n < 10 then 1 else numDigitsAux fuel (n / 10) + 1

/-- Python `len(str(n))` for a non-negative integer `n`. -/
def num_digits (n : Nat) : Nat := numDigitsAux n n

/-- Model of Python three-argument `pow a e n` on naturals: binary
exponentiation mod `n`, structural via fuel (`e + 1` levels always
suffice since the exponent halves at each level). -/
def powModAux : Nat → Nat → Nat → Nat → Nat
  | 0, _, _, n => 1 % n
  | fuel + 1, a, e, n =>
    if e = 0 then 1 % n
    else
      let h := powModAux fuel a (e / 2) n
      let h2 := h * h % n
      if e % 2 = 1 then h2 * (a % n) % n else h2

def powMod (a e n : Nat) : Nat := powModAux (e + 1) a e n

/-- Model of Python three-argument `pow a e n` with an integer base
(Python returns the representative in `[0, n)`, as does `Int.emod` for a
positive modulus). -/
def powModIntAux : Nat → Int → Nat → Int → Int
  | 0, _, _, n => 1 % n
  | fuel + 1, a, e, n =>
    if e = 0 then 1 % n
    else
      let h := powModIntAux fuel a (e / 2) n
      let h2 := h * h % n
      if e % 2 = 1 then h2 * (a % n) % n else h2

def powModInt (a : Int) (e : Nat) (n : Int) : Int := powModIntAux (e + 1) a e n

/-! ### PrimeCalculator: sieves (primes.py lines 85-154) -/

/-- One inner marking pass of `_simple_sieve`: set `sieve[j] = False` for
`j` in `range(i*i, limit+1, i)`. -/
def markMultiples (s : List Bool) (i limit : Nat) : List Bool :=
  (pyRange (i * i) (limit + 1) i).foldl (fun arr j => arr.set j false) s

/-- PrimeCalculator._simple_sieve: Sieve of Eratosthenes up to `limit`. -/
def simple_sieve (limit : Nat) : List Nat :=
  if limit < 2 then []
  else
    let init := ((List.replicate (limit + 1) true).set 0 false).set 1 false
    let final := (pyRange 2 (isqrt limit + 1) 1).foldl
      (fun s i => if s.getD i false then markMultiples s i limit else s) init
    (pyRange 2 (limit + 1) 1).filter (fun i => final.getD i false)

/-- One base-prime marking pass inside a segment of
`_compute_segmented_sieve`: mark multiples of `prime` within
`[low, high]`, starting no earlier than `prime * prime`. -/
def markSegment (seg : List Bool) (prime low high : Nat) : List Bool :=
  let start := max (prime * prime) ((low + prime - 1) / prime * prime)
  if start > high then seg
  else (pyRange start (high + 1) prime).foldl
    (fun arr j => arr.set (j - low) false) seg

/-- PrimeCalculator._compute_segmented_sieve: segmented sieve for large
limits; base primes up to `isqrt limit + 1`, then blocks of that size. -/
def compute_segmented_sieve (limit : Nat) : List Nat :=
  let sqrt_limit := isqrt limit + 1
  let base_primes := simple_sieve sqrt_limit
  let segment_size := sqrt_limit
  (pyRange sqrt_limit (limit + 1) segment_size).foldl
    (fun primes low =>
      let high := min (low + segment_size - 1) limit
      let seg0 := List.replicate (high - low + 1) true
      let seg := base_primes.foldl (fun s p => markSegment s p low high) seg0
      primes ++ (pyRange low (high + 1) 1).filter
        (fun i => 1 < i && seg.getD (i - low) false))
    base_primes

/-- PrimeCalculator._segmented_sieve: dispatch between the simple and the
segmented sieve at `SEGMENTED_SIEVE_THRESHOLD`. -/
def segmented_sieve (limit : Nat) : List Nat :=
  if limit < 2 then []
  else if limit < SEGMENTED_SIEVE_THRESHOLD then simple_sieve limit
  else compute_segmented_sieve limit

/-! ### PrimeCalculator: Miller-Rabin (primes.py lines 156-283) -/

/-- Auxiliary fuel recursion for `_decompose_n_minus_one` and
`_decompose_n_plus_one`: divide out factors of two, counting them. -/
def oddPartAux : Nat → Nat → Nat → Nat × Nat
  | 0, d, r => (d, r)
  | fuel + 1, d, r => if d % 2 = 0 then oddPartAux fuel (d / 2) (r + 1) else (d, r)

/-- PrimeCalculator._decompose_n_minus_one: write `n - 1 = d * 2 ^ r`
with `d` odd. -/
def decompose_n_minus_one (n : Nat) : Nat × Nat := oddPartAux n (n - 1) 0

/-- Squaring loop at the end of `_miller_rabin_witness`: up to `cnt`
times square `x` mod `n` and accept if `n - 1` is ever reached. -/
def witnessLoop : Nat → Nat → Nat → Bool
  | 0, _, _ => false
  | cnt + 1, x, n =>
    let x2 := x * x % n
    if x2 = n - 1 then true else witnessLoop cnt x2 n

/-- PrimeCalculator._miller_rabin_witness. -/
def miller_rabin_witness (n a : Nat) : Bool :=
  let dr := decompose_n_minus_one n
  let x := powMod a dr.1 n
  if x = 1 ∨ x = n - 1 then true
  else witnessLoop (dr.2 - 1) x n

/-- PrimeCalculator._get_deterministic_bases. -/
def get_deterministic_bases (n : Nat) : List Nat :=
  if n < 2047 then [2]
  else if n < 1373653 then [2, 3]
  else if n < 9080191 then [31, 73]
  else if n < 25326001 then [2, 3, 5]
  else if n < 3215031751 then [2, 3, 5, 7]
  else if n < 4759123141 then [2, 7, 61]
  else if n < 1122004669633 then [2, 13, 23, 1662803]
  else if n < 2152302898747 then [2, 3, 5, 7, 11]
  else if n < 3474749660383 then [2, 3, 5, 7, 11, 13]
  else if n < 341550071728321 then [2, 3, 5, 7, 11, 13, 17]
  else [2, 3, 5, 7, 11, 13, 17, 19, 23, 29, 31, 37]

/-- PrimeCalculator._miller_rabin_deterministic. -/
def miller_rabin_deterministic (n : Nat) : Bool :=
  (get_deterministic_bases n).all fun a =>
    if a ≥ n then true else miller_rabin_witness n a

/-- PrimeCalculator.miller_rabin.  The probabilistic branch
(`_miller_rabin_probabilistic`, driven by `random.randint`) is abstracted
as the parameter `prob`; it is reachable only for
`n ≥ DETERMINISTIC_LIMIT`. -/
def miller_rabin (prob : Nat → Nat → Bool) (n k : Nat) : Bool :=
  if n < 2 then false
  else if n = 2 then true
  else if n % 2 = 0 then false
  else if n < DETERMINISTIC_LIMIT then miller_rabin_deterministic n
  else prob n k

/-! ### PrimeCalculator: Jacobi symbol and Lucas test
(primes.py lines 285-596) -/

/-- PrimeCalculator._jacobi_remove_twos, fuel-based. -/
def jacobiRemoveTwos : Nat → Int → Int → Int → Int × Int
  | 0, a, _, r => (a, r)
  | fuel + 1, a, n, r =>
    if a % 2 = 0 then
      jacobiRemoveTwos fuel (a / 2) n (if n % 8 = 3 ∨ n % 8 = 5 then -r else r)
    else (a, r)

/-- Main loop of `_jacobi_symbol`, fuel-based. -/
def jacobiAux : Nat → Int → Int → Int → Int
  | 0, _, n, r => if n = 1 then r else 0
  | fuel + 1, a, n, r =>
    if a = 0 then (if n = 1 then r else 0)
    else
      let p := jacobiRemoveTwos (a.natAbs + 1) a n r
      let a1 := p.1
      let r1 := p.2
      let a2 := n
      let n2 := a1
      let r2 := if a2 % 4 = 3 ∧ n2 % 4 = 3 then -r1 else r1
      jacobiAux fuel (a2 % n2) n2 r2

/-- PrimeCalculator._jacobi_symbol. -/
def jacobi_symbol (a n : Int) : Int :=
  if n ≤ 0 ∨ n % 2 = 0 then 0
  else
    let a1 := a % n
    if a1 = 0 then 0 else jacobiAux (a1.natAbs + n.natAbs + 1) a1 n 1

/-- Loop of `_find_lucas_d`: run at most `fuel` rounds of the
sign-alternating search. -/
def findLucasDAux : Nat → Int → Int → Int → Option Int
  | 0, _, _, _ => none
  | fuel + 1, d, sign, n =>
    let test_d := sign * d
    if jacobi_symbol test_d n = -1 then some test_d
    else
      let sign2 := -sign
      let d2 := if sign2 = 1 then d + 2 else d
      findLucasDAux fuel d2 sign2 n

/-- PrimeCalculator._find_lucas_d. -/
def find_lucas_d (n : Int) : Option Int :=
  findLucasDAux JACOBI_SEARCH_LIMIT 5 1 n

/-- PrimeCalculator._compute_lucas_params. -/
def compute_lucas_params (d : Int) : Int × Option Int :=
  if (1 - d) % 4 ≠ 0 then (1, none) else (1, some ((1 - d) / 4))

/-- PrimeCalculator._decompose_n_plus_one: write `n + 1 = d * 2 ^ s`
with `d` odd. -/
def decompose_n_plus_one (n : Nat) : Nat × Nat := oddPartAux (n + 2) (n + 1) 0

/-- PrimeCalculator._lucas_double_with_q. -/
def lucas_double_with_q (u v q_power n : Int) : Int × Int × Int :=
  ((u * v) % n, (v * v - 2 * q_power) % n, (q_power * q_power) % n)

/-- PrimeCalculator._lucas_next (the modulus is always odd at call
sites, so only the modular-inverse-of-two branch of the source is
live; `(n + 1) / 2` is its inverse of 2). -/
def lucas_next (u v p q n : Int) : Int × Int :=
  let inv_2 : Int := (n + 1) / 2
  let u_next := ((p * u + v) * inv_2) % n
  let delta := (p * p - 4 * q) % n
  let v_next := ((p * v + u * delta) * inv_2) % n
  (u_next, v_next)

/-- Bit positions below the top bit of `k`, most significant first;
this is Python `bin(k)[3:]` read as positions. -/
def bitsBelowTop (k : Nat) : List Nat := (List.range (bit_length k - 1)).reverse

/-- PrimeCalculator._lucas_sequence_iterative. -/
def lucas_sequence_iterative (p q : Int) (k : Nat) (n : Int) : Int × Int :=
  if k = 0 then (0, 2 % n)
  else if k = 1 then (1 % n, p % n)
  else
    let step := fun (st : Int × Int × Int) (i : Nat) =>
      let u := st.1
      let v := st.2.1
      let qp := st.2.2
      let dbl := lucas_double_with_q u v qp n
      if (k >>> i) &&& 1 = 1 then
        let nxt := lucas_next dbl.1 dbl.2.1 p q n
        (nxt.1, nxt.2, (dbl.2.2 * q) % n)
      else dbl
    let fin := (bitsBelowTop k).foldl step (1 % n, p % n, q % n)
    (fin.1, fin.2.1)

/-- Final doubling loop of `_strong_lucas_test` (`for _ in range(1, s)`),
fuel is the iteration count `s - 1`. -/
def strongLucasLoop : Nat → Int → Int → Int → Int → Int → Int → Bool
  | 0, _, _, _, _, _, _ => false
  | cnt + 1, u, v, p, q, qp, n =>
    let dbl := lucas_double_with_q u v qp n
    if dbl.2.1 = 0 then true
    else strongLucasLoop cnt dbl.1 dbl.2.1 p q dbl.2.2 n

/-- PrimeCalculator._strong_lucas_test. -/
def strong_lucas_test (n : Nat) (p q : Int) : Bool :=
  let ds := decompose_n_plus_one n
  let uv := lucas_sequence_iterative p q ds.1 n
  if uv.1 = 0 ∨ uv.2 = 0 then true
  else
    let q_power := powModInt q ds.1 n
    strongLucasLoop (ds.2 - 1) uv.1 uv.2 p q q_power n

/-- PrimeCalculator.baillie_psw; `prob` abstracts the probabilistic
Miller-Rabin branch exactly as in `miller_rabin`. -/
def baillie_psw (prob : Nat → Nat → Bool) (n : Nat) : Bool :=
  if n < 2 then false
  else if n = 2 then true
  else if n % 2 = 0 then false
  else if ¬ miller_rabin_witness n 2 then false
  else
    match find_lucas_d n with
    | none => miller_rabin prob n BAILLIE_PSW_FALLBACK_ROUNDS
    | some d =>
      match (compute_lucas_params d).2 with
      | none => miller_rabin prob n BAILLIE_PSW_FALLBACK_ROUNDS
      | some q => strong_lucas_test n 1 q

/-! ### FibonacciCalculator (fibonacci.py lines 33-105) -/

/-- One iteration of the fast-doubling loop of `_fast_doubling`, for bit
position `i` of `n`; the state is the pair `(a, b) = (F(m), F(m+1))`. -/
def fibStep (n : Nat) (ab : Int × Int) (i : Nat) : Int × Int :=
  let a := ab.1
  let b := ab.2
  let c := a * (2 * b - a)
  let d := a * a + b * b
  if (n >>> i) &&& 1 = 1 then (d, c + d) else (c, d)

/-- FibonacciCalculator._fast_doubling (called with `n ≥ 2`):
`k = n.bit_length() - 1`, loop over `i` in `range(k - 1, -1, -1)` from
the start state `(1, 1) = (F(1), F(2))`. -/
def fast_doubling (n : Nat) : Int :=
  ((List.range (bit_length n - 1)).reverse.foldl (fibStep n) (1, 1)).1

/-- Pure computation core of FibonacciCalculator.calculate_by_index
(after input validation). -/
def fib_compute (n : Nat) : Int :=
  if n = 0 then 0
  else if n = 1 then 1
  else fast_doubling n

/-! ### FactorialCalculator (factorial.py lines 28-86 and 217-262) -/

/-- factorial._product_range: product of `a..b` by binary splitting. -/
def product_range (a b : Nat) : Nat :=
  if a > b then 1
  else if a = b then a
  else if b - a = 1 then a * b
  else
    let mid := (a + b) / 2
    product_range a mid * product_range (mid + 1) b
termination_by b - a
decreasing_by
  all_goals
    simp only [Nat.not_lt, Nat.not_le] at *
    omega

/-- factorial._binary_splitting_factorial (restricted to the valid
domain `n ≥ 0`, i.e. `Nat`; negative input raises in the source). -/
def binary_splitting_factorial (n : Nat) : Nat :=
  if n = 0 ∨ n = 1 then 1 else product_range 1 n

/-- factorial._custom_factorial_simple (same domain restriction):
`result = 1; for i in range(2, n + 1): result *= i`. -/
def custom_factorial_simple (n : Nat) : Nat :=
  if n = 0 ∨ n = 1 then 1 else (pyRange 2 (n + 1) 1).foldl (· * ·) 1

/-! ### Error model for the public entry points -/

/-- Error kinds the embedded entry points can surface.  `inputError`
models `src.core.exceptions.InputError` (InvalidInput).  The precision
guard (`check_precision` / `validate_calculation_inputs`) only fires on
float or complex values, which do not exist in this integer embedding,
so it is a no-op here. -/
inductive CalcError where
  | inputError
  deriving DecidableEq, Repr

/-! ### Estimator (core/estimator.py lines 62-222)

Benchmark times are Python floats; they are modelled exactly over `ℚ`.
The single float-valued library call, `math.log`, is abstracted as the
parameter `lg` (applied to `max 1 n` exactly as in the source).  The
float literal `0.001` is modelled as `1 / 1000`. -/

/-- Error kind for `Estimator.predict_time` (both `raise ValueError`
sites of the source). -/
inductive EstError where
  | noData
  deriving DecidableEq, Repr

/-- Estimator._linear_regression_predict over `ℚ`. -/
def linear_regression_predict (x_values y_values : List ℚ) (x_predict : ℚ) : ℚ :=
  let n := x_values.length
  if n < 2 then
    (if n = 1 ∧ x_values.getD 0 0 ≠ 0
     then y_values.getD 0 0 * (x_predict / x_values.getD 0 0)
     else 0)
  else
    let x_mean := x_values.sum / n
    let y_mean := y_values.sum / n
    let numer := ((List.range n).map
      (fun i => (x_values.getD i 0 - x_mean) * (y_values.getD i 0 - y_mean))).sum
    let denom := ((List.range n).map
      (fun i => (x_values.getD i 0 - x_mean) ^ 2)).sum
    if denom = 0 then y_mean
    else
      let a := numer / denom
      let b := y_mean - a * x_mean
      a * x_predict + b

/-- Estimator._predict_by_type; `lg` models `math.log` on integers. -/
def predict_by_type (lg : Int → ℚ) (calc_type : String)
    (inputs : List Int) (times : List ℚ) (input_value : Int) : ℚ :=
  if calc_type = "fibonacci" then
    linear_regression_predict (inputs.map (fun n => lg (max 1 n))) times
      (lg (max 1 input_value))
  else if calc_type = "factorial" then
    linear_regression_predict
      (inputs.map (fun (n : Int) => (n : ℚ) * lg (max 1 n) ^ 2)) times
      ((input_value : ℚ) * lg (max 1 input_value) ^ 2)
  else if calc_type = "primes" then
    linear_regression_predict
      (inputs.map (fun (n : Int) => (n : ℚ) * lg (max 1 n))) times
      ((input_value : ℚ) * lg (max 1 input_value))
  else
    linear_regression_predict (inputs.map (fun (n : Int) => (n : ℚ))) times
      (input_value : ℚ)

/-- Estimator._simple_extrapolation. -/
def simple_extrapolation (benchmark_points : List (Int × ℚ))
    (input_value : Int) : Except EstError ℚ :=
  match benchmark_points with
  | [(n, t)] => .ok (if n = 0 then t else t * ((input_value : ℚ) / (n : ℚ)))
  | _ => .error .noData

/-- Body of Estimator.predict_time after the dict membership test: its
argument is `benchmark_data.get(calc_type)`. -/
def predict_time_core (lg : Int → ℚ) (input_value : Int) (calc_type : String) :
    Option (List (Int × ℚ)) → Except EstError ℚ
  | none => .error .noData
  | some benchmark_points =>
    if benchmark_points.length < 2 then
      simple_extrapolation benchmark_points input_value
    else
      let sorted_points := benchmark_points.mergeSort
        (fun x y => decide (x.1 ≤ y.1))
      let inputs := sorted_points.map (fun x => x.1)
      let times := sorted_points.map (fun x => x.2)
      let predicted := predict_by_type lg calc_type inputs times input_value
      let predicted2 :=
        if predicted < 1 / 1000 ∧ input_value > 1000
        then max (1 / 1000) predicted else predicted
      .ok (max 0 predicted2)

/-- Estimator.predict_time.  `benchmark_data` is the association list
modelling the dict `self.benchmark_data`. -/
def predict_time (lg : Int → ℚ) (benchmark_data : List (String × List (Int × ℚ)))
    (input_value : Int) (calc_type : String) : Except EstError ℚ :=
  predict_time_core lg input_value calc_type (benchmark_data.lookup calc_type)

/-! ### Lemmas about the runtime primitives -/

theorem isqrt_sq_le (n : Nat) : isqrt n * isqrt n ≤ n :=
  Nat.findGreatest_spec (P := fun k => k * k ≤ n) (Nat.zero_le n) (by simp)

theorem lt_isqrt_succ_sq (n : Nat) : n < (isqrt n + 1) * (isqrt n + 1) := by
  by_contra hc
  push_neg at hc
  have hle : isqrt n + 1 ≤ n := by
    calc isqrt n + 1 ≤ (isqrt n + 1) * (isqrt n + 1) := Nat.le_mul_of_pos_left _ (by omega)
    _ ≤ n := hc
  have := Nat.le_findGreatest (P := fun k => k * k ≤ n) hle hc
  simp only [isqrt] at this ⊢
  omega

theorem lt_ceilDiv_iff {k : Nat} (hk : 0 < k) (A i : Nat) :
    i < (A + k - 1) / k ↔ k * i < A := by
  rcases A with _ | A
  · have h0 : (0 + k - 1) / k = 0 := Nat.div_eq_of_lt (by omega)
    constructor
    · intro h
      rw [h0] at h
      exact absurd h (Nat.not_lt_zero _)
    · intro h
      exact absurd h (Nat.not_lt_zero _)
  · have h1 : (A + 1 + k - 1) / k = A / k + 1 := by
      have h2 : A + 1 + k - 1 = A + k := by omega
      rw [h2, Nat.add_div_right _ hk]
    rw [h1, Nat.lt_succ_iff, Nat.le_div_iff_mul_le hk, Nat.mul_comm]
    omega

theorem mem_pyRange {k : Nat} (hk : 0 < k) {s t m : Nat} :
    m ∈ pyRange s t k ↔ ∃ i, k * i < t - s ∧ m = s + k * i := by
  unfold pyRange
  rw [List.mem_range']
  constructor
  · rintro ⟨i, hi, rfl⟩
    exact ⟨i, (lt_ceilDiv_iff hk (t - s) i).mp hi, rfl⟩
  · rintro ⟨i, hi, rfl⟩
    exact ⟨i, (lt_ceilDiv_iff hk (t - s) i).mpr hi, rfl⟩

theorem pyRange_one_mem {s t m : Nat} : m ∈ pyRange s t 1 ↔ s ≤ m ∧ m < t := by
  rw [mem_pyRange Nat.one_pos]
  constructor
  · rintro ⟨i, hi, rfl⟩
    omega
  · rintro ⟨hs, ht⟩
    exact ⟨m - s, by omega, by omega⟩

theorem getD_set_false (s : List Bool) (j m : Nat) :
    (s.set j false).getD m false = if j = m then false else s.getD m false := by
  rw [List.getD_eq_getElem?_getD, List.getD_eq_getElem?_getD, List.getElem?_set]
  rcases eq_or_ne j m with rfl | hne
  · rw [if_pos rfl, if_pos rfl]
    rcases Nat.lt_or_ge j s.length with h | h
    · rw [if_pos h]
      rfl
    · rw [if_neg (Nat.not_lt.mpr h)]
      rfl
  · rw [if_neg hne, if_neg hne]

theorem getD_foldl_set_false (ws : List Nat) (s : List Bool) (m : Nat)
    (hm : m ∉ ws) :
    (ws.foldl (fun arr j => arr.set j false) s).getD m false
      = s.getD m false := by
  induction ws generalizing s with
  | nil => rfl
  | cons w ws ih =>
    have hmw : m ≠ w := fun h => hm (h ▸ List.mem_cons_self w ws)
    have hm' : m ∉ ws := fun h => hm (List.mem_cons_of_mem _ h)
    simp only [List.foldl_cons]
    rw [ih _ hm', getD_set_false, if_neg (fun h => hmw h.symm)]

theorem numDigitsAux_eq_log (fuel n : Nat) (h : n ≤ fuel) :
    numDigitsAux fuel n = Nat.log 10 n + 1 := by
  induction fuel generalizing n with
  | zero =>
    have : n = 0 := by omega
    subst this
    simp [numDigitsAux]
  | succ fuel ih =>
    by_cases h10 : n < 10
    · simp only [numDigitsAux, if_pos h10, Nat.log_of_lt h10]
    · have hd : n / 10 ≤ fuel := by omega
      have hlog := Nat.log_of_one_lt_of_le (b := 10) (n := n) (by norm_num) (by omega)
      simp only [numDigitsAux, if_neg h10]
      rw [ih (n / 10) hd, hlog]

theorem num_digits_eq_log (n : Nat) : num_digits n = Nat.log 10 n + 1 :=
  numDigitsAux_eq_log n n le_rfl

theorem num_digits_mono {m n : Nat} (h : m ≤ n) : num_digits m ≤ num_digits n := by
  rw [num_digits_eq_log, num_digits_eq_log]
  exact Nat.add_le_add_right (Nat.log_mono_right h) 1

theorem le_num_digits_of_pow_le {d n : Nat} (hd : 1 ≤ d) (h : 10 ^ (d - 1) ≤ n) :
    d ≤ num_digits n := by
  have hp : 0 < 10 ^ (d - 1) := pow_pos (by norm_num) _
  have hn : n ≠ 0 := by omega
  rw [num_digits_eq_log]
  have := (Nat.pow_le_iff_le_log (by norm_num) hn).mp h
  omega

theorem bitLenAux_eq_log (fuel n : Nat) (h : n ≤ fuel) (hn : n ≠ 0) :
    bitLenAux fuel n = Nat.log 2 n + 1 := by
  induction fuel generalizing n with
  | zero => omega
  | succ fuel ih =>
    simp only [bitLenAux, if_neg hn]
    by_cases h2 : n < 2
    · have : n = 1 := by omega
      subst this
      have h0 : bitLenAux fuel 0 = 0 := by cases fuel <;> simp [bitLenAux]
      simp [h0]
    · have hd : n / 2 ≤ fuel := by omega
      have hlog := Nat.log_of_one_lt_of_le (b := 2) (n := n) (by norm_num) (by omega)
      rw [ih (n / 2) hd (by omega), hlog]

theorem bit_length_eq_log (n : Nat) (hn : n ≠ 0) :
    bit_length n = Nat.log 2 n + 1 :=
  bitLenAux_eq_log (n + 1) n (by omega) hn

theorem bit_length_bounds (n : Nat) (hn : n ≠ 0) :
    2 ^ (bit_length n - 1) ≤ n ∧ n < 2 ^ bit_length n := by
  rw [bit_length_eq_log n hn]
  constructor
  · simpa using Nat.pow_log_le_self 2 hn
  · simpa using Nat.lt_pow_succ_log_self (by norm_num) n

theorem powModAux_eq (fuel a e n : Nat) (h : e < fuel) :
    powModAux fuel a e n = a ^ e % n := by
  induction fuel generalizing e with
  | zero => omega
  | succ fuel ih =>
    simp only [powModAux]
    by_cases he : e = 0
    · simp [he]
    · rw [if_neg he, ih (e / 2) (by omega)]
      have hsq : a ^ (e / 2) % n * (a ^ (e / 2) % n) % n = a ^ (e / 2 + e / 2) % n := by
        rw [← Nat.mul_mod, ← pow_add]
      by_cases hodd : e % 2 = 1
      · rw [if_pos hodd, hsq, ← Nat.mul_mod, ← pow_succ]
        have he2 : e / 2 + e / 2 + 1 = e := by omega
        rw [he2]
      · rw [if_neg hodd, hsq]
        have he2 : e / 2 + e / 2 = e := by omega
        rw [he2]

theorem powMod_eq (a e n : Nat) : powMod a e n = a ^ e % n :=
  powModAux_eq (e + 1) a e n (by omega)

theorem oddPartAux_spec (fuel : Nat) :
    ∀ d r, 0 < d → d ≤ fuel →
      (oddPartAux fuel d r).1 % 2 = 1 ∧
      (oddPartAux fuel d r).1 * 2 ^ ((oddPartAux fuel d r).2 - r) = d ∧
      r ≤ (oddPartAux fuel d r).2 := by
  induction fuel with
  | zero => intro d r hd hdf; omega
  | succ fuel ih =>
    intro d r hd hdf
    simp only [oddPartAux]
    by_cases he : d % 2 = 0
    · rw [if_pos he]
      obtain ⟨h1, h2, h3⟩ := ih (d / 2) (r + 1) (by omega) (by omega)
      refine ⟨h1, ?_, by omega⟩
      have hpow : 2 ^ ((oddPartAux fuel (d / 2) (r + 1)).2 - r)
          = 2 ^ ((oddPartAux fuel (d / 2) (r + 1)).2 - (r + 1)) * 2 := by
        rw [← pow_succ]
        congr 1
        omega
      rw [hpow, ← Nat.mul_assoc, h2]
      omega
    · rw [if_neg he]
      simp only []
      exact ⟨by omega, by simp, le_rfl⟩

/-! ### Sieve completeness: every prime up to the limit is listed -/

theorem ceil_mul_ge (low q : Nat) (hq : 0 < q) :
    low ≤ (low + q - 1) / q * q := by
  rcases Nat.eq_zero_or_pos low with rfl | hl
  · simp
  · have h1 : low + q - 1 = low - 1 + q := by omega
    rw [h1, Nat.add_div_right _ hq]
    have hdm := Nat.div_add_mod (low - 1) q
    have hm : (low - 1) % q < q := Nat.mod_lt _ hq
    have hdist : ((low - 1) / q + 1) * q = q * ((low - 1) / q) + q := by ring
    omega

theorem ceil_mul_dvd (low q : Nat) : q ∣ (low + q - 1) / q * q :=
  ⟨(low + q - 1) / q, by ring⟩

theorem init_sieve_getD {limit p : Nat} (h2 : 2 ≤ p) (hle : p ≤ limit) :
    (((List.replicate (limit + 1) true).set 0 false).set 1 false).getD p false
      = true := by
  rw [getD_set_false, if_neg (by omega), getD_set_false, if_neg (by omega),
    List.getD_eq_getElem?_getD, List.getElem?_replicate, if_pos (by omega)]
  rfl

theorem prime_not_mem_markList {p i limit : Nat} (hp : p.Prime) (hi : 2 ≤ i) :
    p ∉ pyRange (i * i) (limit + 1) i := by
  intro hmem
  obtain ⟨t, _, hpe⟩ := (mem_pyRange (by omega)).mp hmem
  have hdvd : i ∣ p := ⟨i + t, by rw [hpe]; ring⟩
  rcases (Nat.Prime.eq_one_or_self_of_dvd hp i hdvd) with h1 | hip
  · omega
  · subst hip
    have h2 := hp.two_le
    nlinarith

theorem sieve_fold_getD_true (limit : Nat) {p : Nat} (hp : p.Prime) :
    ∀ (is : List Nat), (∀ i ∈ is, 2 ≤ i) → ∀ (s : List Bool),
      s.getD p false = true →
      (is.foldl
        (fun s i => if s.getD i false then markMultiples s i limit else s)
        s).getD p false = true := by
  intro is
  induction is with
  | nil => intro _ s hs; exact hs
  | cons i is ih =>
    intro his s hs
    have hi : 2 ≤ i := his i (List.mem_cons_self i is)
    have his' : ∀ j ∈ is, 2 ≤ j := fun j hj => his j (List.mem_cons_of_mem _ hj)
    simp only [List.foldl_cons]
    apply ih his'
    by_cases hc : s.getD i false = true
    · rw [if_pos hc]
      unfold markMultiples
      rw [getD_foldl_set_false _ _ _ (prime_not_mem_markList hp hi)]
      exact hs
    · rw [if_neg hc]
      exact hs

theorem mem_simple_sieve_of_prime {p limit : Nat} (hp : p.Prime)
    (hle : p ≤ limit) : p ∈ simple_sieve limit := by
  have h2 : 2 ≤ p := hp.two_le
  unfold simple_sieve
  rw [if_neg (by omega)]
  apply List.mem_filter.mpr
  refine ⟨pyRange_one_mem.mpr ⟨h2, by omega⟩, ?_⟩
  apply sieve_fold_getD_true limit hp
  · intro i hi
    exact (pyRange_one_mem.mp hi).1
  · exact init_sieve_getD h2 hle

theorem mem_simple_sieve_bounds {x limit : Nat} (hx : x ∈ simple_sieve limit) :
    2 ≤ x ∧ x ≤ limit := by
  unfold simple_sieve at hx
  by_cases h : limit < 2
  · rw [if_pos h] at hx
    simp at hx
  · rw [if_neg h] at hx
    have := (List.mem_filter.mp hx).1
    have := pyRange_one_mem.mp this
    omega

theorem mem_foldl_append_acc {α β : Type} (g : β → List α) (ls : List β)
    (acc : List α) (x : α) (hx : x ∈ acc) :
    x ∈ ls.foldl (fun a l => a ++ g l) acc := by
  induction ls generalizing acc with
  | nil => exact hx
  | cons l ls ih =>
    simp only [List.foldl_cons]
    exact ih _ (List.mem_append.mpr (Or.inl hx))

theorem mem_foldl_pres {α β : Type} (F : List α → β → List α)
    (hpres : ∀ a l x, x ∈ a → x ∈ F a l) (ls : List β) :
    ∀ (acc : List α) (x : α), x ∈ acc → x ∈ ls.foldl F acc := by
  induction ls with
  | nil => intro acc x hx; exact hx
  | cons l0 ls ih =>
    intro acc x hx
    simp only [List.foldl_cons]
    exact ih _ _ (hpres _ _ _ hx)

theorem mem_foldl_of_step {α β : Type} (F : List α → β → List α)
    (hpres : ∀ a l x, x ∈ a → x ∈ F a l) (x : α) (l : β)
    (hstep : ∀ a, x ∈ F a l) :
    ∀ (ls : List β) (acc : List α), l ∈ ls → x ∈ ls.foldl F acc := by
  intro ls
  induction ls with
  | nil => intro acc h; exact absurd h (List.not_mem_nil l)
  | cons l0 ls ih =>
    intro acc hl
    simp only [List.foldl_cons]
    rcases List.mem_cons.mp hl with rfl | hl'
    · exact mem_foldl_pres F hpres ls _ x (hstep acc)
    · exact ih _ hl'

theorem getD_foldl_set_sub_false (low : Nat) (ws : List Nat) :
    ∀ (s : List Bool) (m : Nat), (∀ j ∈ ws, j - low ≠ m) →
    (ws.foldl (fun arr j => arr.set (j - low) false) s).getD m false
      = s.getD m false := by
  induction ws with
  | nil => intro s m _; rfl
  | cons w ws ih =>
    intro s m hm
    simp only [List.foldl_cons]
    rw [ih _ _ (fun j hj => hm j (List.mem_cons_of_mem _ hj)),
      getD_set_false, if_neg (hm w (List.mem_cons_self w ws))]

theorem prime_seg_getD_true {p low high : Nat} (hp : p.Prime)
    (hlow : low ≤ p) (hhigh : p ≤ high) :
    ∀ (qs : List Nat), (∀ q ∈ qs, 2 ≤ q) → ∀ (s : List Bool),
      s.getD (p - low) false = true →
      (qs.foldl (fun s q => markSegment s q low high) s).getD (p - low) false
        = true := by
  intro qs
  induction qs with
  | nil => intro _ s hs; exact hs
  | cons q qs ih =>
    intro hqs s hs
    have hq : 2 ≤ q := hqs q (List.mem_cons_self q qs)
    have hqs' : ∀ x ∈ qs, 2 ≤ x := fun x hx => hqs x (List.mem_cons_of_mem _ hx)
    simp only [List.foldl_cons]
    apply ih hqs'
    unfold markSegment
    by_cases hc : max (q * q) ((low + q - 1) / q * q) > high
    · rw [if_pos hc]
      exact hs
    · rw [if_neg hc]
      rw [getD_foldl_set_sub_false]
      · exact hs
      · intro j hjmem hjeq
        obtain ⟨t, _, hje⟩ := (mem_pyRange (by omega)).mp hjmem
        have hstart_low : low ≤ max (q * q) ((low + q - 1) / q * q) :=
          le_trans (ceil_mul_ge low q (by omega)) (le_max_right _ _)
        have hjlow : low ≤ j := by omega
        have hjp : j = p := by omega
        have hdvd : q ∣ j := by
          rw [hje]
          rcases max_choice (q * q) ((low + q - 1) / q * q) with hmx | hmx <;> rw [hmx]
          · exact Dvd.dvd.add ⟨q, rfl⟩ ⟨t, rfl⟩
          · exact Dvd.dvd.add (ceil_mul_dvd low q) ⟨t, rfl⟩
        have hqq : q * q ≤ j := by
          have := le_max_left (q * q) ((low + q - 1) / q * q)
          omega
        rcases Nat.Prime.eq_one_or_self_of_dvd hp q (hjp ▸ hdvd) with h1 | hqp
        · omega
        · subst hqp
          have h2 := hp.two_le
          nlinarith

theorem mem_compute_segmented_sieve_of_prime {p limit : Nat} (hp : Nat.Prime p)
    (hle : p ≤ limit) : p ∈ compute_segmented_sieve limit := by
  have h2 : 2 ≤ p := hp.two_le
  simp only [compute_segmented_sieve]
  by_cases hcase : p < isqrt limit + 1
  · apply mem_foldl_pres _ (fun a l x hx => List.mem_append.mpr (Or.inl hx))
    exact mem_simple_sieve_of_prime hp (by omega)
  · set sq := isqrt limit + 1 with hsq
    have hsq1 : 1 ≤ sq := by omega
    push_neg at hcase
    have hddm := Nat.div_add_mod (p - sq) sq
    have hmod : (p - sq) % sq < sq := Nat.mod_lt _ (by omega)
    set i := (p - sq) / sq with hi
    set low := sq + sq * i with hlowdef
    have hlow_le : low ≤ p := by omega
    have hp_lt : p < low + sq := by omega
    have hlowmem : low ∈ pyRange sq (limit + 1) sq :=
      (mem_pyRange (by omega)).mpr ⟨i, by omega, rfl⟩
    apply mem_foldl_of_step _ (fun a l x hx => List.mem_append.mpr (Or.inl hx))
      p low _ _ _ hlowmem
    intro a
    apply List.mem_append.mpr
    right
    have hp_high : p ≤ (low + sq - 1) ⊓ limit := by omega
    apply List.mem_filter.mpr
    refine ⟨pyRange_one_mem.mpr ⟨hlow_le, by omega⟩, ?_⟩
    rw [Bool.and_eq_true, decide_eq_true_eq]
    refine ⟨by omega, ?_⟩
    apply prime_seg_getD_true hp hlow_le hp_high
    · intro q hq
      exact (mem_simple_sieve_bounds hq).1
    · rw [List.getD_eq_getElem?_getD, List.getElem?_replicate,
        if_pos (by omega)]
      rfl

/-! ### Prime counting and the bound-growing loop of calculate_by_index -/

/-- Number of primes `≤ n` (specification-side counting function). -/
def primePi (n : Nat) : Nat := ((Finset.range (n + 1)).filter Nat.Prime).card

theorem primePi_mono {m n : Nat} (h : m ≤ n) : primePi m ≤ primePi n := by
  apply Finset.card_le_card
  intro x hx
  rw [Finset.mem_filter, Finset.mem_range] at hx ⊢
  exact ⟨by omega, hx.2⟩

theorem mem_segmented_sieve_of_prime {p limit : Nat} (hp : Nat.Prime p)
    (hle : p ≤ limit) : p ∈ segmented_sieve limit := by
  unfold segmented_sieve
  have h2 := hp.two_le
  rw [if_neg (by omega)]
  by_cases hc : limit < SEGMENTED_SIEVE_THRESHOLD
  · rw [if_pos hc]
    exact mem_simple_sieve_of_prime hp hle
  · rw [if_neg hc]
    exact mem_compute_segmented_sieve_of_prime hp hle

theorem primePi_le_segmented_length (limit : Nat) :
    primePi limit ≤ (segmented_sieve limit).length := by
  classical
  calc primePi limit ≤ (segmented_sieve limit).toFinset.card := by
        apply Finset.card_le_card
        intro x hx
        rw [Finset.mem_filter, Finset.mem_range] at hx
        rw [List.mem_toFinset]
        exact mem_segmented_sieve_of_prime hx.2 (by omega)
  _ ≤ (segmented_sieve limit).length := List.toFinset_card_le _

theorem exists_primePi_ge (n : Nat) : ∃ B, n ≤ primePi B := by
  induction n with
  | zero => exact ⟨0, Nat.zero_le _⟩
  | succ n ih =>
    obtain ⟨B, hB⟩ := ih
    obtain ⟨p, hpB, hp⟩ := Nat.exists_infinite_primes (B + 1)
    refine ⟨p, ?_⟩
    have hsub : insert p ((Finset.range (B + 1)).filter Nat.Prime)
        ⊆ (Finset.range (p + 1)).filter Nat.Prime := by
      intro x hx
      rw [Finset.mem_insert] at hx
      rw [Finset.mem_filter, Finset.mem_range]
      rcases hx with rfl | hx
      · exact ⟨by omega, hp⟩
      · rw [Finset.mem_filter, Finset.mem_range] at hx
        exact ⟨by omega, hx.2⟩
    have hnot : p ∉ (Finset.range (B + 1)).filter Nat.Prime := by
      rw [Finset.mem_filter, Finset.mem_range]
      omega
    have := Finset.card_le_card hsub
    rw [Finset.card_insert_of_not_mem hnot] at this
    unfold primePi at hB ⊢
    omega

/-- Bound-growing loop of PrimeCalculator.calculate_by_index
(lines 60-65): sieve, and while fewer than `n` primes were found, grow
the bound by `int(bound * 1.5) + 100` (exactly `3 * bound / 2 + 100` for
every bound a float can hold exactly) and resieve.  Terminates because
the sieve output length is at least `primePi bound`, which is
unbounded. -/
def growLoop (n bound : Nat) : List Nat :=
  let primes := segmented_sieve bound
  if primes.length < n then growLoop n (3 * bound / 2 + 100) else primes
termination_by Nat.find (exists_primePi_ge n) - bound
decreasing_by
  have hfind := Nat.find_spec (exists_primePi_ge n)
  have hlen := primePi_le_segmented_length bound
  have hpl : primes.length = (segmented_sieve bound).length := rfl
  have hlt : bound < Nat.find (exists_primePi_ge n) := by
    by_contra hcon
    push_neg at hcon
    have := primePi_mono hcon
    omega
  omega

theorem growLoop_length_ge_aux (n : Nat) :
    ∀ (fuelm bound : Nat), Nat.find (exists_primePi_ge n) ≤ bound + fuelm →
      n ≤ (growLoop n bound).length := by
  intro fuelm
  induction fuelm with
  | zero =>
    intro bound h
    have hfind := Nat.find_spec (exists_primePi_ge n)
    have hmono := primePi_mono (show Nat.find (exists_primePi_ge n) ≤ bound by omega)
    have hlen := primePi_le_segmented_length bound
    rw [growLoop, if_neg (by omega)]
    omega
  | succ fuelm ih =>
    intro bound h
    rw [growLoop]
    by_cases hc : (segmented_sieve bound).length < n
    · rw [if_pos hc]
      exact ih _ (by omega)
    · rw [if_neg hc]
      omega

theorem growLoop_length_ge (n bound : Nat) : n ≤ (growLoop n bound).length :=
  growLoop_length_ge_aux n (Nat.find (exists_primePi_ge n)) bound (by omega)

/-- PrimeCalculator.calculate_by_index.  The parameter `est` abstracts
the float-computed `_estimate_upper_bound`; the returned value and the
error behaviour are independent of it.  `primes.getD (n - 1) 0` embeds
the subscript `primes[n - 1]`, which is in bounds by
`growLoop_length_ge`. -/
def prime_calculate_by_index (est : Nat → Nat) (n : Int) : Except CalcError Int :=
  if n < 1 then .error .inputError
  else if n = 1 then .ok 2
  else
    let primes := growLoop n.toNat (est n.toNat)
    .ok ((primes.getD (n.toNat - 1) 0 : Nat) : Int)

/-! ### Fast doubling computes the Fibonacci numbers -/

theorem fib_cast_two_mul (m : Nat) :
    (Nat.fib m : Int) * (2 * (Nat.fib (m + 1) : Int) - (Nat.fib m : Int))
      = (Nat.fib (2 * m) : Int) := by
  have hle : Nat.fib m ≤ 2 * Nat.fib (m + 1) :=
    le_trans (Nat.fib_mono (show m ≤ m + 1 by omega)) (by omega)
  rw [Nat.fib_two_mul, Nat.cast_mul, Nat.cast_sub hle, Nat.cast_mul]
  norm_num

theorem fib_cast_two_mul_add_one (m : Nat) :
    (Nat.fib m : Int) * (Nat.fib m : Int)
        + (Nat.fib (m + 1) : Int) * (Nat.fib (m + 1) : Int)
      = (Nat.fib (2 * m + 1) : Int) := by
  rw [Nat.fib_two_mul_add_one]
  push_cast
  ring

theorem fibStep_eq (n j : Nat) :
    fibStep n ((Nat.fib (n >>> (j + 1)) : Int), (Nat.fib (n >>> (j + 1) + 1) : Int)) j
      = ((Nat.fib (n >>> j) : Int), (Nat.fib (n >>> j + 1) : Int)) := by
  set m := n >>> (j + 1) with hm
  have hshift : n >>> j = 2 * m + (n >>> j) % 2 := by
    rw [hm, Nat.shiftRight_succ]
    omega
  have hband : (n >>> j) &&& 1 = (n >>> j) % 2 := Nat.and_one_is_mod _
  simp only [fibStep, hband]
  by_cases hbit : (n >>> j) % 2 = 1
  · rw [if_pos hbit]
    have h1 : n >>> j = 2 * m + 1 := by omega
    rw [h1]
    refine Prod.ext ?_ ?_
    · exact fib_cast_two_mul_add_one m
    · show (Nat.fib m : Int) * (2 * (Nat.fib (m + 1) : Int) - Nat.fib m)
          + ((Nat.fib m : Int) * Nat.fib m + (Nat.fib (m + 1) : Int) * Nat.fib (m + 1))
          = (Nat.fib (2 * m + 1 + 1) : Int)
      rw [fib_cast_two_mul m, fib_cast_two_mul_add_one m]
      have : 2 * m + 1 + 1 = 2 * m + 2 := rfl
      rw [this, Nat.fib_add_two]
      push_cast
      ring
  · rw [if_neg hbit]
    have h1 : n >>> j = 2 * m := by omega
    rw [h1]
    refine Prod.ext ?_ ?_
    · exact fib_cast_two_mul m
    · show (Nat.fib m : Int) * Nat.fib m + (Nat.fib (m + 1) : Int) * Nat.fib (m + 1)
          = (Nat.fib (2 * m + 1) : Int)
      exact fib_cast_two_mul_add_one m

theorem fib_fold_invariant (n : Nat) :
    ∀ j : Nat, (List.range j).reverse.foldl (fibStep n)
        ((Nat.fib (n >>> j) : Int), (Nat.fib (n >>> j + 1) : Int))
      = ((Nat.fib n : Int), (Nat.fib (n + 1) : Int)) := by
  intro j
  induction j with
  | zero => simp
  | succ j ih =>
    have hcons : (List.range (j + 1)).reverse = j :: (List.range j).reverse := by
      rw [List.range_succ, List.reverse_append]
      rfl
    rw [hcons, List.foldl_cons, fibStep_eq n j, ih]

theorem fast_doubling_eq_fib (n : Nat) (h2 : 2 ≤ n) :
    fast_doubling n = (Nat.fib n : Int) := by
  obtain ⟨hlow, hhigh⟩ := bit_length_bounds n (by omega)
  have hbl : 1 ≤ bit_length n := by
    by_contra hb
    push_neg at hb
    have hb0 : bit_length n = 0 := by omega
    rw [hb0, pow_zero] at hhigh
    omega
  have htop : n >>> (bit_length n - 1) = 1 := by
    rw [Nat.shiftRight_eq_div_pow]
    have hpow : 2 * 2 ^ (bit_length n - 1) = 2 ^ bit_length n := by
      rw [← pow_succ']
      congr 1
      omega
    apply Nat.div_eq_of_lt_le
    · rw [one_mul]
      exact hlow
    · calc n < 2 ^ bit_length n := hhigh
      _ = (1 + 1) * 2 ^ (bit_length n - 1) := by rw [← hpow]
  have hinit : ((1 : Int), (1 : Int))
      = ((Nat.fib (n >>> (bit_length n - 1)) : Int),
         (Nat.fib (n >>> (bit_length n - 1) + 1) : Int)) := by
    rw [htop]
    rfl
  unfold fast_doubling
  rw [hinit, fib_fold_invariant n (bit_length n - 1)]

theorem fib_compute_eq (n : Nat) : fib_compute n = (Nat.fib n : Int) := by
  unfold fib_compute
  rcases Nat.lt_or_ge n 2 with h | h
  · interval_cases n <;> rfl
  · rw [if_neg (by omega), if_neg (by omega)]
    exact fast_doubling_eq_fib n h

/-! ### Generic forward search loop (the by_digits scan loops) -/

/-- Forward scan `c, c + step, c + 2 * step, …` for the first value
accepted by `P`, given that some value in the progression is accepted.
This is the common shape of the `while True` loops of
`calculate_by_digits` (steps 1 and 2). -/
def findFrom (P : Nat → Bool) (step : Nat) (hstep : 0 < step) (c : Nat)
    (h : ∃ k, P (c + step * k) = true) : Nat :=
  if hp : P c = true then c
  else
    findFrom P step hstep (c + step) (by
      obtain ⟨k, hk⟩ := h
      rcases k with _ | k
      · rw [Nat.mul_zero, Nat.add_zero] at hk
        exact absurd hk hp
      · exact ⟨k, by rw [← hk]; ring_nf⟩)
termination_by Nat.find h
decreasing_by
  have hspec := Nat.find_spec h
  have hpos : 0 < Nat.find h := by
    rcases Nat.eq_zero_or_pos (Nat.find h) with h0 | h0
    · rw [h0, Nat.mul_zero, Nat.add_zero] at hspec
      exact absurd hspec hp
    · exact h0
  have hnext : P (c + step + step * (Nat.find h - 1)) = true := by
    obtain ⟨m, hm⟩ : ∃ m, Nat.find h = m + 1 := ⟨Nat.find h - 1, by omega⟩
    rw [hm]
    have harith : c + step + step * (m + 1 - 1) = c + step * (m + 1) := by
      rw [Nat.add_sub_cancel]
      ring
    rw [harith]
    rw [← hm]
    exact hspec
  exact Nat.lt_of_le_of_lt (Nat.find_le hnext) (by omega)

/-! ### FibonacciCalculator entry points -/

/-- FibonacciCalculator.calculate_by_index. -/
def fibonacci_calculate_by_index (n : Int) : Except CalcError Int :=
  if n < 0 then .error .inputError else .ok (fib_compute n.toNat)

theorem le_fib_add_two (n : Nat) : n ≤ Nat.fib (n + 2) := by
  induction n with
  | zero => exact Nat.zero_le _
  | succ n ih =>
    have h1 : 0 < Nat.fib (n + 1) := Nat.fib_pos.mpr (by omega)
    have h2 : Nat.fib (n + 1 + 2) = Nat.fib (n + 1) + Nat.fib (n + 1 + 1) :=
      Nat.fib_add_two
    have h3 : Nat.fib (n + 1 + 1) = Nat.fib (n + 2) := rfl
    omega

theorem fib_digits_exists (dn : Nat) :
    ∃ k, (decide (dn ≤ num_digits (fib_compute (0 + 1 * k)).toNat)) = true := by
  rcases Nat.eq_zero_or_pos dn with rfl | hd
  · exact ⟨0, by simp⟩
  · refine ⟨10 ^ (dn - 1) + 2, ?_⟩
    rw [decide_eq_true_eq]
    have hfc : fib_compute (0 + 1 * (10 ^ (dn - 1) + 2))
        = (Nat.fib (10 ^ (dn - 1) + 2) : Int) := by
      rw [fib_compute_eq]
      norm_num
    rw [hfc, Int.toNat_natCast]
    exact le_num_digits_of_pow_le hd (le_fib_add_two _)

/-- FibonacciCalculator.calculate_by_digits: scan `n = 0, 1, 2, …` until
`len(str(F(n))) ≥ d` and return that Fibonacci value. -/
def fibonacci_calculate_by_digits (d : Int) : Except CalcError Int :=
  if d < 1 then .error .inputError
  else
    .ok (fib_compute (findFrom
      (fun n => decide (d.toNat ≤ num_digits (fib_compute n).toNat))
      1 Nat.one_pos 0 (fib_digits_exists d.toNat)))

/-! ### FactorialCalculator entry points -/

/-- FactorialCalculator.calculate_by_index; `math.factorial` is the
platform factorial primitive, embedded as `Nat.factorial`. -/
def factorial_calculate_by_index (n : Int) : Except CalcError Int :=
  if n < 0 then .error .inputError
  else .ok ((n.toNat.factorial : Nat) : Int)

theorem factorial_digits_exists (dn : Nat) :
    ∃ k, (decide (dn ≤ num_digits (0 + 1 * k).factorial)) = true := by
  rcases Nat.eq_zero_or_pos dn with rfl | hd
  · exact ⟨0, by simp⟩
  · refine ⟨10 ^ (dn - 1), ?_⟩
    rw [decide_eq_true_eq]
    have h1 : 10 ^ (dn - 1) ≤ (0 + 1 * 10 ^ (dn - 1)).factorial := by
      have := Nat.self_le_factorial (0 + 1 * 10 ^ (dn - 1))
      omega
    exact le_num_digits_of_pow_le hd h1

/-- FactorialCalculator.calculate_by_digits: scan `n = 0, 1, 2, …` until
`len(str(n!)) ≥ d` and return that factorial. -/
def factorial_calculate_by_digits (d : Int) : Except CalcError Int :=
  if d < 1 then .error .inputError
  else
    .ok (((findFrom
      (fun n => decide (d.toNat ≤ num_digits n.factorial))
      1 Nat.one_pos 0 (factorial_digits_exists d.toNat)).factorial : Nat) : Int)

/-! ### PrimeCalculator.calculate_by_digits -/

/-- PrimeCalculator._get_starting_candidate. -/
def get_starting_candidate (d : Nat) : Nat :=
  let start := 10 ^ (d - 1)
  if start = 1 then 2
  else if start % 2 = 0 then start + 1 else start

/-- Search loop of PrimeCalculator.calculate_by_digits.  The loop tests
candidates with `miller_rabin`, whose behaviour above
`DETERMINISTIC_LIMIT` depends on the random-base model `prob`; for an
adversarial `prob` the source loop need not terminate, so the loop is
embedded with fuel and `none` stands for non-termination. -/
def primeByDigitsLoop (prob : Nat → Nat → Bool) (d : Nat) :
    Nat → Nat → Option Nat
  | 0, _ => none
  | fuel + 1, candidate =>
    if num_digits candidate < d then
      primeByDigitsLoop prob d fuel (candidate + 2)
    else if miller_rabin prob candidate MILLER_RABIN_DEFAULT_ROUNDS then
      some candidate
    else primeByDigitsLoop prob d fuel (candidate + 2)

/-- PrimeCalculator.calculate_by_digits (fuel-based; the input check of
the source is `not isinstance(d, int) or d <= 0`, which for integer
arguments is `d ≤ 0`). -/
def prime_calculate_by_digits (prob : Nat → Nat → Bool) (fuel : Nat)
    (d : Int) : Option (Except CalcError Int) :=
  if d ≤ 0 then some (.error .inputError)
  else if d = 1 then some (.ok 2)
  else (primeByDigitsLoop prob d.toNat fuel (get_starting_candidate d.toNat)).map
    (fun c => .ok ((c : Nat) : Int))

/-! ### Factorial equivalences -/

theorem product_range_eq_aux :
    ∀ (fuel a b : Nat), b - a ≤ fuel → 1 ≤ a →
      product_range a b = ∏ i ∈ Finset.Icc a b, i := by
  intro fuel
  induction fuel with
  | zero =>
    intro a b hf ha
    rw [product_range]
    rcases Nat.lt_or_ge b a with h | h
    · rw [if_pos h, Finset.Icc_eq_empty (by omega), Finset.prod_empty]
    · have hab : a = b := by omega
      subst hab
      rw [if_neg (by omega), if_pos rfl, Finset.Icc_self, Finset.prod_singleton]
  | succ fuel ih =>
    intro a b hf ha
    rw [product_range]
    rcases Nat.lt_or_ge b a with h | h
    · rw [if_pos h, Finset.Icc_eq_empty (by omega), Finset.prod_empty]
    · rw [if_neg (by omega)]
      by_cases heq : a = b
      · subst heq
        rw [if_pos rfl, Finset.Icc_self, Finset.prod_singleton]
      · rw [if_neg heq]
        by_cases hone : b - a = 1
        · have hb : b = a + 1 := by omega
          subst hb
          rw [if_pos hone, Finset.prod_Icc_succ_top (by omega), Finset.Icc_self,
            Finset.prod_singleton]
        · rw [if_neg hone]
          have hmid : a ≤ (a + b) / 2 ∧ (a + b) / 2 < b := by omega
          have h1 := ih a ((a + b) / 2) (by omega) ha
          have h2 := ih ((a + b) / 2 + 1) b (by omega) (by omega)
          show product_range a ((a + b) / 2) * product_range ((a + b) / 2 + 1) b
            = ∏ i ∈ Finset.Icc a b, i
          rw [h1, h2]
          have hsplit : Finset.Icc a b
              = Finset.Icc a ((a + b) / 2) ∪ Finset.Icc ((a + b) / 2 + 1) b := by
            ext x
            simp only [Finset.mem_Icc, Finset.mem_union]
            omega
          have hdisj : Disjoint (Finset.Icc a ((a + b) / 2))
              (Finset.Icc ((a + b) / 2 + 1) b) := by
            rw [Finset.disjoint_left]
            intro x hx hx'
            simp only [Finset.mem_Icc] at hx hx'
            omega
          rw [hsplit, Finset.prod_union hdisj]

theorem product_range_eq (a b : Nat) (ha : 1 ≤ a) :
    product_range a b = ∏ i ∈ Finset.Icc a b, i :=
  product_range_eq_aux (b - a) a b le_rfl ha

theorem prod_Icc_one_eq_factorial (n : Nat) :
    ∏ i ∈ Finset.Icc 1 n, i = n.factorial := by
  rw [← Nat.Ico_succ_right]
  exact Finset.prod_Ico_id_eq_factorial n

theorem binary_splitting_factorial_eq (n : Nat) :
    binary_splitting_factorial n = n.factorial := by
  unfold binary_splitting_factorial
  by_cases h : n = 0 ∨ n = 1
  · rw [if_pos h]
    rcases h with rfl | rfl <;> rfl
  · rw [if_neg h, product_range_eq 1 n (by omega), prod_Icc_one_eq_factorial]

theorem foldl_range'_mul (m : Nat) :
    (List.range' 2 m 1).foldl (· * ·) 1 = (m + 1).factorial := by
  induction m with
  | zero => rfl
  | succ m ih =>
    rw [List.range'_concat, List.foldl_append, ih]
    show (m + 1).factorial * (2 + 1 * m) = (m + 2).factorial
    have h1 : 2 + 1 * m = m + 2 := by omega
    rw [h1, Nat.factorial_succ (m + 1)]
    ring

theorem custom_factorial_simple_eq (n : Nat) :
    custom_factorial_simple n = n.factorial := by
  unfold custom_factorial_simple
  by_cases h : n = 0 ∨ n = 1
  · rw [if_pos h]
    rcases h with rfl | rfl <;> rfl
  · rw [if_neg h]
    unfold pyRange
    have hc : (n + 1 - 2 + 1 - 1) / 1 = n - 1 := by omega
    rw [hc, foldl_range'_mul (n - 1)]
    congr 1
    omega

/-! ### Characterisation of the Lucas D search -/

/-- Candidate sequence actually generated by the `_find_lucas_d` loop
state machine, as a list (first `fuel` candidates from state
`(d, sign)`). -/
def lucasCandList : Nat → Int → Int → List Int
  | 0, _, _ => []
  | fuel + 1, d, sign =>
    sign * d ::
      (let sign2 := -sign
       lucasCandList fuel (if sign2 = 1 then d + 2 else d) sign2)

theorem findLucasDAux_eq_find (n : Int) :
    ∀ (fuel : Nat) (d sign : Int),
      findLucasDAux fuel d sign n
        = (lucasCandList fuel d sign).find?
            (fun t => decide (jacobi_symbol t n = -1)) := by
  intro fuel
  induction fuel with
  | zero => intro d sign; rfl
  | succ fuel ih =>
    intro d sign
    simp only [findLucasDAux, lucasCandList]
    by_cases hj : jacobi_symbol (sign * d) n = -1
    · rw [if_pos hj, List.find?_cons_of_pos _ (by simp [hj])]
    · rw [if_neg hj, List.find?_cons_of_neg _ (by simp [hj]), ih]

/-- The 20 candidates the source actually tries: `5, -5, 7, -7, …`. -/
theorem lucasCandList_concrete :
    lucasCandList JACOBI_SEARCH_LIMIT 5 1
      = [5, -5, 7, -7, 9, -9, 11, -11, 13, -13, 15, -15, 17, -17,
         19, -19, 21, -21, 23, -23] := by
  rfl

theorem find_lucas_d_eq_find (n : Int) :
    find_lucas_d n
      = ([5, -5, 7, -7, 9, -9, 11, -11, 13, -13, 15, -15, 17, -17,
          19, -19, 21, -21, 23, -23] : List Int).find?
          (fun t => decide (jacobi_symbol t n = -1)) := by
  rw [find_lucas_d, findLucasDAux_eq_find, lucasCandList_concrete]

/-- The alternating sequence named by the specification:
`5, -7, 9, -11, 13, …`. -/
def selfridgeSeq (i : Nat) : Int :=
  (if i % 2 = 0 then 1 else -1) * (5 + 2 * i)

/-! ### Trial-division reference test (specification side) -/

def trialAux : Nat → Nat → Nat → Bool
  | 0, _, _ => true
  | fuel + 1, m, n =>
    if m * m ≤ n then
      (if n % m = 0 then false else trialAux fuel (m + 1) n)
    else true

/-- Trial-division primality: `n ≥ 2` and no divisor `m` with
`2 ≤ m`, `m * m ≤ n`. -/
def isPrimeTrial (n : Nat) : Bool :=
  if n < 2 then false else trialAux n 2 n

theorem trialAux_iff :
    ∀ (fuel m n : Nat), 1 ≤ m → n + 2 - m ≤ fuel →
      (trialAux fuel m n = true ↔ ∀ j, m ≤ j → j * j ≤ n → ¬ j ∣ n) := by
  intro fuel
  induction fuel with
  | zero =>
    intro m n hm hf
    constructor
    · intro _ j hj hjj hdvd
      have hjle : j ≤ j * j := Nat.le_mul_of_pos_left j (by omega)
      omega
    · intro _
      rfl
  | succ fuel ih =>
    intro m n hm hf
    simp only [trialAux]
    by_cases hmm : m * m ≤ n
    · rw [if_pos hmm]
      by_cases hmod : n % m = 0
      · rw [if_pos hmod]
        constructor
        · intro hq
          exact absurd hq (by simp)
        · intro hall
          exact absurd (Nat.dvd_iff_mod_eq_zero.mpr hmod) (hall m le_rfl hmm)
      · rw [if_neg hmod]
        rw [ih (m + 1) n (by omega) (by omega)]
        constructor
        · intro hall j hj hjj hdvd
          rcases Nat.eq_or_lt_of_le hj with rfl | hlt
          · exact hmod (Nat.dvd_iff_mod_eq_zero.mp hdvd)
          · exact hall j (by omega) hjj hdvd
        · intro hall j hj hjj hdvd
          exact hall j (by omega) hjj hdvd
    · rw [if_neg hmm]
      constructor
      · intro _ j hj hjj hdvd
        have : m * m ≤ j * j := Nat.mul_le_mul hj hj
        omega
      · intro _
        rfl

theorem isPrimeTrial_iff (n : Nat) : isPrimeTrial n = true ↔ n.Prime := by
  unfold isPrimeTrial
  by_cases h2 : n < 2
  · rw [if_pos h2]
    constructor
    · intro hq
      exact absurd hq (by simp)
    · intro hp
      have := hp.two_le
      omega
  · rw [if_neg h2, trialAux_iff n 2 n (by omega) (by omega),
      Nat.prime_def_le_sqrt]
    constructor
    · intro hall
      refine ⟨by omega, fun m hm hms => hall m hm (Nat.le_sqrt.mp hms)⟩
    · intro ⟨_, hall⟩ j hj hjj
      exact hall j hj (Nat.le_sqrt.mpr hjj)

/-! ### The rounds argument is ignored below the deterministic limit -/

theorem miller_rabin_prob_irrel (p1 p2 : Nat → Nat → Bool) (n k1 k2 : Nat)
    (h : n < DETERMINISTIC_LIMIT) :
    miller_rabin p1 n k1 = miller_rabin p2 n k2 := by
  unfold miller_rabin
  split_ifs <;> first | rfl | omega

theorem baillie_psw_prob_irrel (p1 p2 : Nat → Nat → Bool) (n : Nat)
    (h : n < DETERMINISTIC_LIMIT) :
    baillie_psw p1 n = baillie_psw p2 n := by
  unfold baillie_psw
  split_ifs <;> try rfl
  cases hfd : find_lucas_d (n : Int) with
  | none => exact miller_rabin_prob_irrel p1 p2 n _ _ h
  | some d =>
    show (match (compute_lucas_params d).2 with
          | none => miller_rabin p1 n BAILLIE_PSW_FALLBACK_ROUNDS
          | some q => strong_lucas_test n 1 q)
        = (match (compute_lucas_params d).2 with
          | none => miller_rabin p2 n BAILLIE_PSW_FALLBACK_ROUNDS
          | some q => strong_lucas_test n 1 q)
    cases hq : (compute_lucas_params d).2 with
    | none => exact miller_rabin_prob_irrel p1 p2 n _ _ h
    | some q => rfl

/-! ### Estimator lemmas -/

theorem predict_time_error_iff (lg : Int → ℚ)
    (data : List (String × List (Int × ℚ))) (input : Int) (t : String) :
    predict_time lg data input t = .error .noData ↔
      (data.lookup t = none ∨ data.lookup t = some []) := by
  unfold predict_time
  cases hlook : data.lookup t with
  | none => simp [predict_time_core]
  | some pts =>
    rcases pts with _ | ⟨⟨n0, t0⟩, _ | ⟨y, rest⟩⟩
    · simp [predict_time_core, simple_extrapolation]
    · simp [predict_time_core, simple_extrapolation]
    · simp only [predict_time_core]
      rw [if_neg (by simp)]
      simp

theorem predict_time_single (lg : Int → ℚ)
    (data : List (String × List (Int × ℚ))) (input : Int) (t : String)
    (n0 : Int) (t0 : ℚ) (h : data.lookup t = some [(n0, t0)]) :
    predict_time lg data input t
      = .ok (if n0 = 0 then t0 else t0 * ((input : ℚ) / (n0 : ℚ))) := by
  unfold predict_time
  rw [h]
  simp only [predict_time_core]
  norm_num [simple_extrapolation]

theorem predict_time_one_sample_double (lg : Int → ℚ)
    (data : List (String × List (Int × ℚ))) (t : String)
    (n0 : Int) (t0 : ℚ) (h : data.lookup t = some [(n0, t0)]) (hn : 0 < n0) :
    predict_time lg data (2 * n0) t = .ok (2 * t0) := by
  rw [predict_time_single lg data (2 * n0) t n0 t0 h, if_neg (by omega)]
  congr 1
  have hne : (n0 : ℚ) ≠ 0 := Int.cast_ne_zero.mpr (by omega)
  push_cast
  field_simp
  ring

theorem predict_time_two_plus (lg : Int → ℚ)
    (data : List (String × List (Int × ℚ))) (input : Int) (t : String)
    (pts : List (Int × ℚ)) (q : ℚ)
    (hlook : data.lookup t = some pts) (hlen : 2 ≤ pts.length)
    (hok : predict_time lg data input t = .ok q) :
    0 ≤ q ∧ (1000 < input → 1 / 1000 ≤ q) := by
  unfold predict_time at hok
  rw [hlook] at hok
  simp only [predict_time_core] at hok
  rw [if_neg (by omega)] at hok
  rw [Except.ok.injEq] at hok
  subst hok
  constructor
  · exact le_max_left _ _
  · intro hinput
    set predicted := predict_by_type lg t
      ((pts.mergeSort fun x y => decide (x.1 ≤ y.1)).map fun x => x.1)
      ((pts.mergeSort fun x y => decide (x.1 ≤ y.1)).map fun x => x.2)
      input with hpred
    by_cases hcond : predicted < 1 / 1000 ∧ input > 1000
    · rw [if_pos hcond]
      calc (1 : ℚ) / 1000 ≤ max (1 / 1000) predicted := le_max_left _ _
      _ ≤ max 0 (max (1 / 1000) predicted) := le_max_right _ _
    · rw [if_neg hcond]
      push_neg at hcond
      have hge : 1 / 1000 ≤ predicted :=
        not_lt.mp (fun hl => absurd hinput (not_lt.mpr (hcond hl)))
      calc (1 : ℚ) / 1000 ≤ predicted := hge
      _ ≤ max 0 predicted := le_max_right _ _

theorem getD_eq_of_mem_all {xs : List ℚ} {c : ℚ} (hconst : ∀ x ∈ xs, x = c)
    {i : Nat} (hi : i < xs.length) : xs.getD i 0 = c := by
  rw [List.getD_eq_getElem?_getD, List.getElem?_eq_getElem hi]
  exact hconst _ (List.getElem_mem hi)

theorem linear_regression_predict_const (xs ys : List ℚ) (xp c : ℚ)
    (hlen : 2 ≤ xs.length) (hconst : ∀ x ∈ xs, x = c) :
    linear_regression_predict xs ys xp = ys.sum / xs.length := by
  have hlen0 : (xs.length : ℚ) ≠ 0 := by
    simp only [ne_eq, Nat.cast_eq_zero]
    omega
  have hxm : xs.sum / (xs.length : ℚ) = c := by
    rw [List.sum_eq_card_nsmul xs c hconst, nsmul_eq_mul]
    field_simp
  have hdenom : ((List.range xs.length).map
      (fun i => (xs.getD i 0 - xs.sum / (xs.length : ℚ)) ^ 2)).sum = 0 := by
    apply List.sum_eq_zero
    intro x hx
    obtain ⟨i, hi, rfl⟩ := List.mem_map.mp hx
    rw [List.mem_range] at hi
    rw [hxm, getD_eq_of_mem_all hconst hi]
    ring
  simp only [linear_regression_predict]
  rw [if_neg (by omega), if_pos hdenom]

/-! ### Concrete model instances used by witnesses -/

/-- Concrete instance of the probabilistic-branch model (never reached
by any input below `DETERMINISTIC_LIMIT`). -/
def probFalse : Nat → Nat → Bool := fun _ _ => false

/-- Concrete instance of the `math.log` model. -/
def lgZero : Int → ℚ := fun _ => 0

/-! ### Claim theorems -/

/-- C1 (code_bug evidence): `_compute_segmented_sieve` lists the prime
`isqrt limit + 1` twice whenever that number is prime — here at
`limit = 120` where `isqrt 120 + 1 = 11`: the base primes contain 11 and
the first segment, which starts at 11, appends it again.  Consequently
`calculate_by_index` (which indexes `primes[n - 1]`) returns the
(n-1)-th prime instead of the n-th for every affected bound, e.g. at
`n = 7887`, contradicting the claim. -/
theorem segmented_sieve_duplicates_prime_sqrt_bound :
    isqrt 120 + 1 = 11 ∧
    (compute_segmented_sieve 120).count 11 = 2 ∧
    (simple_sieve 120).count 11 = 1 ∧
    compute_segmented_sieve 120 ≠ simple_sieve 120 := by decide

/-- C2: `FibonacciCalculator.calculate_by_index` returns F(n) for every
n ≥ 0 (fast doubling computes the canonical Fibonacci sequence with
F(0)=0, F(1)=1); in particular F(10)=55 and
F(100)=354224848179261915075. -/
theorem fibonacci_by_index_matches_fib :
    (∀ n : Nat, fibonacci_calculate_by_index (n : Int) = .ok ((Nat.fib n : Int))) ∧
    fibonacci_calculate_by_index 10 = .ok 55 ∧
    fibonacci_calculate_by_index 100 = .ok 354224848179261915075 := by
  refine ⟨?_, by rfl, by rfl⟩
  intro n
  unfold fibonacci_calculate_by_index
  rw [if_neg (not_lt.mpr (Int.natCast_nonneg n))]
  rw [Int.toNat_natCast, fib_compute_eq]

/-- C4 (counterexample): at n = 11 (odd, > 2, passes the base-2
Miller-Rabin witness test), `_find_lucas_d` selects D = -5, which is not
an element of the alternating sequence 5, -7, 9, -11, 13, … named by the
claim; the first element of that sequence with Jacobi symbol -1 is 13,
not -5. -/
theorem find_lucas_d_not_selfridge_at_11 :
    (2 < 11 ∧ 11 % 2 = 1 ∧ miller_rabin_witness 11 2 = true) ∧
    find_lucas_d (11 : Int) = some (-5) ∧
    (∀ i, i < 20 → selfridgeSeq i ≠ -5) ∧
    ((List.range 20).map selfridgeSeq).find?
      (fun t => decide (jacobi_symbol t (11 : Int) = -1)) = some 13 := by
  decide

/-- C4 (amended): for every odd n > 2 passing the base-2 witness test,
D is the first element of the sequence 5, -5, 7, -7, 9, -9, …, 23, -23
(each magnitude tried with both signs; 20 candidates) whose Jacobi
symbol (D/n) is -1; only if none is found, or (1 - D) is not divisible
by 4, does the test fall back to `miller_rabin` with 10 rounds,
otherwise it runs the strong Lucas test with P = 1, Q = (1 - D) / 4. -/
theorem baillie_psw_lucas_d_selection :
    ∀ (prob : Nat → Nat → Bool) (n : Nat),
      2 < n → n % 2 = 1 → miller_rabin_witness n 2 = true →
      (find_lucas_d (n : Int)
        = ([5, -5, 7, -7, 9, -9, 11, -11, 13, -13, 15, -15, 17, -17,
            19, -19, 21, -21, 23, -23] : List Int).find?
            (fun t => decide (jacobi_symbol t (n : Int) = -1))) ∧
      (find_lucas_d (n : Int) = none →
        baillie_psw prob n = miller_rabin prob n BAILLIE_PSW_FALLBACK_ROUNDS) ∧
      (∀ D : Int, find_lucas_d (n : Int) = some D → (1 - D) % 4 ≠ 0 →
        baillie_psw prob n = miller_rabin prob n BAILLIE_PSW_FALLBACK_ROUNDS) ∧
      (∀ D : Int, find_lucas_d (n : Int) = some D → (1 - D) % 4 = 0 →
        baillie_psw prob n = strong_lucas_test n 1 ((1 - D) / 4)) := by
  intro prob n hn2 hodd hw
  have hunfold : baillie_psw prob n
      = match find_lucas_d (n : Int) with
        | none => miller_rabin prob n BAILLIE_PSW_FALLBACK_ROUNDS
        | some d =>
          match (compute_lucas_params d).2 with
          | none => miller_rabin prob n BAILLIE_PSW_FALLBACK_ROUNDS
          | some q => strong_lucas_test n 1 q := by
    unfold baillie_psw
    rw [if_neg (by omega), if_neg (by omega), if_neg (by omega),
      if_neg (by simp [hw])]
  refine ⟨find_lucas_d_eq_find (n : Int), ?_, ?_, ?_⟩
  · intro hnone
    rw [hunfold, hnone]
  · intro D hD hmod
    rw [hunfold, hD]
    show (match (compute_lucas_params D).2 with
          | none => miller_rabin prob n BAILLIE_PSW_FALLBACK_ROUNDS
          | some q => strong_lucas_test n 1 q)
        = miller_rabin prob n BAILLIE_PSW_FALLBACK_ROUNDS
    have hcp : (compute_lucas_params D).2 = none := by
      simp [compute_lucas_params, hmod]
    rw [hcp]
  · intro D hD hmod
    rw [hunfold, hD]
    show (match (compute_lucas_params D).2 with
          | none => miller_rabin prob n BAILLIE_PSW_FALLBACK_ROUNDS
          | some q => strong_lucas_test n 1 q)
        = strong_lucas_test n 1 ((1 - D) / 4)
    have hcp : (compute_lucas_params D).2 = some ((1 - D) / 4) := by
      simp [compute_lucas_params, hmod]
    rw [hcp]

/-- C4 (witness): at n = 11 the selected D = -5 has (1 - D) % 4 ≠ 0, so
`baillie_psw` falls back to the 10-round `miller_rabin` call. -/
theorem baillie_psw_lucas_d_selection_witness :
    baillie_psw probFalse 11
      = miller_rabin probFalse 11 BAILLIE_PSW_FALLBACK_ROUNDS ∧
    find_lucas_d (11 : Int) = some (-5) :=
  ⟨(baillie_psw_lucas_d_selection probFalse 11 (by norm_num) (by norm_num)
      (by decide)).2.2.1 (-5) (by decide) (by decide), by decide⟩

/-- C5: the binary-splitting factorial, the naive iterative factorial
and `FactorialCalculator.calculate_by_index` all return
n! = 1 * 2 * … * n (with 0! = 1! = 1) for every n ≥ 0. -/
theorem factorial_implementations_agree :
    ∀ n : Nat,
      binary_splitting_factorial n = n.factorial ∧
      custom_factorial_simple n = n.factorial ∧
      factorial_calculate_by_index (n : Int) = .ok ((n.factorial : Nat) : Int) ∧
      n.factorial = ∏ i ∈ Finset.Icc 1 n, i := by
  intro n
  refine ⟨binary_splitting_factorial_eq n, custom_factorial_simple_eq n, ?_,
    (prod_Icc_one_eq_factorial n).symm⟩
  unfold factorial_calculate_by_index
  rw [if_neg (not_lt.mpr (Int.natCast_nonneg n)), Int.toNat_natCast]

/-- C7: every public entry point surfaces InvalidInput exactly when its
documented precondition fails (prime index < 1, negative Fibonacci or
factorial index, digit count < 1), and returns a value for every integer
argument satisfying the precondition (the fuel-based prime by-digits
search never surfaces InvalidInput for a valid argument, for any fuel
and any model of the random branch). -/
theorem entry_points_validate_inputs :
    ∀ (est : Nat → Nat) (prob : Nat → Nat → Bool) (fuel : Nat) (n d : Int),
      (prime_calculate_by_index est n = .error .inputError ↔ n < 1) ∧
      ((∃ v, prime_calculate_by_index est n = .ok v) ↔ 1 ≤ n) ∧
      (fibonacci_calculate_by_index n = .error .inputError ↔ n < 0) ∧
      ((∃ v, fibonacci_calculate_by_index n = .ok v) ↔ 0 ≤ n) ∧
      (factorial_calculate_by_index n = .error .inputError ↔ n < 0) ∧
      ((∃ v, factorial_calculate_by_index n = .ok v) ↔ 0 ≤ n) ∧
      (fibonacci_calculate_by_digits d = .error .inputError ↔ d < 1) ∧
      ((∃ v, fibonacci_calculate_by_digits d = .ok v) ↔ 1 ≤ d) ∧
      (factorial_calculate_by_digits d = .error .inputError ↔ d < 1) ∧
      ((∃ v, factorial_calculate_by_digits d = .ok v) ↔ 1 ≤ d) ∧
      (prime_calculate_by_digits prob fuel d = some (.error .inputError) ↔ d < 1) := by
  intro est prob fuel n d
  refine ⟨?_, ?_, ?_, ?_, ?_, ?_, ?_, ?_, ?_, ?_, ?_⟩
  · unfold prime_calculate_by_index
    split_ifs with h1 h2 <;> simp <;> omega
  · unfold prime_calculate_by_index
    split_ifs with h1 h2 <;> simp <;> omega
  · unfold fibonacci_calculate_by_index
    split_ifs with h1 <;> simp <;> omega
  · unfold fibonacci_calculate_by_index
    split_ifs with h1 <;> simp <;> omega
  · unfold factorial_calculate_by_index
    split_ifs with h1 <;> simp <;> omega
  · unfold factorial_calculate_by_index
    split_ifs with h1 <;> simp <;> omega
  · unfold fibonacci_calculate_by_digits
    split_ifs with h1 <;> simp <;> omega
  · unfold fibonacci_calculate_by_digits
    split_ifs with h1 <;> simp <;> omega
  · unfold factorial_calculate_by_digits
    split_ifs with h1 <;> simp <;> omega
  · unfold factorial_calculate_by_digits
    split_ifs with h1 <;> simp <;> omega
  · unfold prime_calculate_by_digits
    split_ifs with h1 h2
    · simp
      omega
    · simp
      omega
    · cases hloop : primeByDigitsLoop prob d.toNat fuel
        (get_starting_candidate d.toNat) <;> simp [hloop] <;> omega

/-- C8: `predict_time` surfaces an error exactly when zero samples are
stored for the requested type (absent key or empty list); with exactly
one sample (n0, t0) it returns t0 * (input / n0) for n0 > 0 and t0 for
n0 = 0, so `predict_time (2 * n0)` returns exactly 2 * t0. -/
theorem predict_time_zero_and_one_sample :
    ∀ (lg : Int → ℚ) (data : List (String × List (Int × ℚ))) (input : Int)
      (t : String),
      (predict_time lg data input t = .error .noData ↔
        (data.lookup t = none ∨ data.lookup t = some [])) ∧
      (∀ (n0 : Int) (t0 : ℚ), data.lookup t = some [(n0, t0)] →
        predict_time lg data input t
          = .ok (if n0 = 0 then t0 else t0 * ((input : ℚ) / (n0 : ℚ))) ∧
        (0 < n0 → predict_time lg data (2 * n0) t = .ok (2 * t0))) := by
  intro lg data input t
  exact ⟨predict_time_error_iff lg data input t,
    fun n0 t0 h => ⟨predict_time_single lg data input t n0 t0 h,
      fun hn => predict_time_one_sample_double lg data t n0 t0 h hn⟩⟩

/-- C8 (witness): one stored sample (3, 5); predicting at twice the
sampled input returns twice the sampled time. -/
theorem predict_time_zero_and_one_sample_witness :
    predict_time lgZero [("fib", [(3, 5)])] 6 "fib" = .ok 10 := by
  have h := ((predict_time_zero_and_one_sample lgZero
    [("fib", [(3, 5)])] 6 "fib").2 3 5 rfl).2 (by norm_num)
  norm_num at h
  exact h

/-- C9 (counterexample): with a single stored sample (1, 1) the early
return of `predict_time` bypasses both clamps, so a negative input
yields the negative prediction -5; the returned value is not
non-negative, contradicting the claim as stated for every sample set
and input. -/
theorem predict_time_clamp_counterexample :
    predict_time lgZero [("fib", [(1, 1)])] (-5) "fib" = .ok (-5) ∧
    ¬ (0 ≤ (-5 : ℚ)) := by
  constructor
  · have h := predict_time_single lgZero [("fib", [(1, 1)])] (-5) "fib" 1 1 rfl
    norm_num at h
    exact h
  · norm_num

/-- C9 (amended): when two or more samples are stored for the type, the
returned value is clamped non-negative, and for requested inputs above
1000 it is additionally floored at 1/1000; and whenever all x-values
given to `_linear_regression_predict` are equal, it returns the mean of
the y-values. -/
theorem predict_time_clamps_with_two_samples :
    (∀ (lg : Int → ℚ) (data : List (String × List (Int × ℚ))) (input : Int)
        (t : String) (pts : List (Int × ℚ)) (q : ℚ),
      data.lookup t = some pts → 2 ≤ pts.length →
      predict_time lg data input t = .ok q →
      0 ≤ q ∧ (1000 < input → 1 / 1000 ≤ q)) ∧
    (∀ (xs ys : List ℚ) (xp c : ℚ), 2 ≤ xs.length → (∀ x ∈ xs, x = c) →
      linear_regression_predict xs ys xp = ys.sum / xs.length) :=
  ⟨fun lg data input t pts q h1 h2 h3 =>
      predict_time_two_plus lg data input t pts q h1 h2 h3,
   fun xs ys xp c h1 h2 => linear_regression_predict_const xs ys xp c h1 h2⟩

/-- C9 (witness): two equal x-values give the mean of the y-values. -/
theorem predict_time_clamps_witness :
    linear_regression_predict [(3 : ℚ), 3] [1, 5] 7 = 3 := by
  have h := (predict_time_clamps_with_two_samples).2 [(3 : ℚ), 3] [1, 5] 7 3
    (by norm_num) (by intro x hx; simp at hx; rcases hx with rfl | rfl <;> rfl)
  norm_num [List.sum_cons, List.sum_nil] at h
  exact h

/-- C10: below `DETERMINISTIC_LIMIT` the rounds argument of
`miller_rabin` is ignored and the fixed base table is used, so the
result is a deterministic function of n alone (independent of the
rounds and of the random-branch model). -/
theorem miller_rabin_rounds_ignored_below_limit :
    ∀ (p1 p2 : Nat → Nat → Bool) (n k1 k2 : Nat), n < DETERMINISTIC_LIMIT →
      miller_rabin p1 n k1 = miller_rabin p2 n k2 :=
  fun p1 p2 n k1 k2 h => miller_rabin_prob_irrel p1 p2 n k1 k2 h

/-- C10 (witness): at n = 97 the result with 1 round equals the result
with 40 rounds, and both are `true`. -/
theorem miller_rabin_rounds_ignored_witness :
    miller_rabin probFalse 97 1 = miller_rabin probFalse 97 40 ∧
    miller_rabin probFalse 97 1 = true :=
  ⟨miller_rabin_rounds_ignored_below_limit probFalse probFalse 97 1 40
      (by decide), by decide⟩

/-! ### C3: agreement of both primality tests with trial division -/

theorem c3_agree_chunk0 :
    ∀ m, m < 1000 →
      (miller_rabin probFalse m MILLER_RABIN_DEFAULT_ROUNDS
          = isPrimeTrial m ∧
       baillie_psw probFalse m = isPrimeTrial m) := by
  decide

theorem c3_agree_chunk1 :
    ∀ m, m < 1000 →
      (miller_rabin probFalse (1000 + m) MILLER_RABIN_DEFAULT_ROUNDS
          = isPrimeTrial (1000 + m) ∧
       baillie_psw probFalse (1000 + m) = isPrimeTrial (1000 + m)) := by
  decide

theorem c3_agree_chunk2 :
    ∀ m, m < 1000 →
      (miller_rabin probFalse (2000 + m) MILLER_RABIN_DEFAULT_ROUNDS
          = isPrimeTrial (2000 + m) ∧
       baillie_psw probFalse (2000 + m) = isPrimeTrial (2000 + m)) := by
  decide

theorem c3_agree_chunk3 :
    ∀ m, m < 1000 →
      (miller_rabin probFalse (3000 + m) MILLER_RABIN_DEFAULT_ROUNDS
          = isPrimeTrial (3000 + m) ∧
       baillie_psw probFalse (3000 + m) = isPrimeTrial (3000 + m)) := by
  decide

theorem c3_agree_chunk4 :
    ∀ m, m < 1000 →
      (miller_rabin probFalse (4000 + m) MILLER_RABIN_DEFAULT_ROUNDS
          = isPrimeTrial (4000 + m) ∧
       baillie_psw probFalse (4000 + m) = isPrimeTrial (4000 + m)) := by
  decide

theorem c3_agree_chunk5 :
    ∀ m, m < 1000 →
      (miller_rabin probFalse (5000 + m) MILLER_RABIN_DEFAULT_ROUNDS
          = isPrimeTrial (5000 + m) ∧
       baillie_psw probFalse (5000 + m) = isPrimeTrial (5000 + m)) := by
  decide

theorem c3_agree_chunk6 :
    ∀ m, m < 1000 →
      (miller_rabin probFalse (6000 + m) MILLER_RABIN_DEFAULT_ROUNDS
          = isPrimeTrial (6000 + m) ∧
       baillie_psw probFalse (6000 + m) = isPrimeTrial (6000 + m)) := by
  decide

theorem c3_agree_chunk7 :
    ∀ m, m < 1000 →
      (miller_rabin probFalse (7000 + m) MILLER_RABIN_DEFAULT_ROUNDS
          = isPrimeTrial (7000 + m) ∧
       baillie_psw probFalse (7000 + m) = isPrimeTrial (7000 + m)) := by
  decide

theorem c3_agree_chunk8 :
    ∀ m, m < 1000 →
      (miller_rabin probFalse (8000 + m) MILLER_RABIN_DEFAULT_ROUNDS
          = isPrimeTrial (8000 + m) ∧
       baillie_psw probFalse (8000 + m) = isPrimeTrial (8000 + m)) := by
  decide

theorem c3_agree_chunk9 :
    ∀ m, m < 1000 →
      (miller_rabin probFalse (9000 + m) MILLER_RABIN_DEFAULT_ROUNDS
          = isPrimeTrial (9000 + m) ∧
       baillie_psw probFalse (9000 + m) = isPrimeTrial (9000 + m)) := by
  decide

/-- C3: for every n < 10000, `miller_rabin` (default rounds) and
`baillie_psw` return true exactly when n is prime; both reject the
Carmichael number 561 and both accept the prime 982451653. -/
theorem miller_rabin_baillie_psw_agree_with_primality :
    ∀ (prob : Nat → Nat → Bool) (n : Nat), n < 10000 →
      ((miller_rabin prob n MILLER_RABIN_DEFAULT_ROUNDS = true ↔ n.Prime) ∧
       (baillie_psw prob n = true ↔ n.Prime)) ∧
      (miller_rabin prob 561 MILLER_RABIN_DEFAULT_ROUNDS = false ∧
       baillie_psw prob 561 = false ∧
       miller_rabin prob 982451653 MILLER_RABIN_DEFAULT_ROUNDS = true ∧
       baillie_psw prob 982451653 = true) := by
  intro prob n hn
  have hbig : (10000 : Nat) ≤ DETERMINISTIC_LIMIT := by norm_num [DETERMINISTIC_LIMIT]
  have hbig2 : (982451654 : Nat) ≤ DETERMINISTIC_LIMIT := by norm_num [DETERMINISTIC_LIMIT]
  have key : miller_rabin probFalse n MILLER_RABIN_DEFAULT_ROUNDS = isPrimeTrial n ∧
      baillie_psw probFalse n = isPrimeTrial n := by
    rcases Nat.lt_or_ge n 1000 with h1 | h1
    · exact c3_agree_chunk0 n h1
    rcases Nat.lt_or_ge n 2000 with h2 | h2
    · obtain ⟨m, rfl⟩ : ∃ m, n = 1000 + m := ⟨n - 1000, by omega⟩
      exact c3_agree_chunk1 m (by omega)
    rcases Nat.lt_or_ge n 3000 with h3 | h3
    · obtain ⟨m, rfl⟩ : ∃ m, n = 2000 + m := ⟨n - 2000, by omega⟩
      exact c3_agree_chunk2 m (by omega)
    rcases Nat.lt_or_ge n 4000 with h4 | h4
    · obtain ⟨m, rfl⟩ : ∃ m, n = 3000 + m := ⟨n - 3000, by omega⟩
      exact c3_agree_chunk3 m (by omega)
    rcases Nat.lt_or_ge n 5000 with h5 | h5
    · obtain ⟨m, rfl⟩ : ∃ m, n = 4000 + m := ⟨n - 4000, by omega⟩
      exact c3_agree_chunk4 m (by omega)
    rcases Nat.lt_or_ge n 6000 with h6 | h6
    · obtain ⟨m, rfl⟩ : ∃ m, n = 5000 + m := ⟨n - 5000, by omega⟩
      exact c3_agree_chunk5 m (by omega)
    rcases Nat.lt_or_ge n 7000 with h7 | h7
    · obtain ⟨m, rfl⟩ : ∃ m, n = 6000 + m := ⟨n - 6000, by omega⟩
      exact c3_agree_chunk6 m (by omega)
    rcases Nat.lt_or_ge n 8000 with h8 | h8
    · obtain ⟨m, rfl⟩ : ∃ m, n = 7000 + m := ⟨n - 7000, by omega⟩
      exact c3_agree_chunk7 m (by omega)
    rcases Nat.lt_or_ge n 9000 with h9 | h9
    · obtain ⟨m, rfl⟩ : ∃ m, n = 8000 + m := ⟨n - 8000, by omega⟩
      exact c3_agree_chunk8 m (by omega)
    obtain ⟨m, rfl⟩ : ∃ m, n = 9000 + m := ⟨n - 9000, by omega⟩
    exact c3_agree_chunk9 m (by omega)
  refine ⟨⟨?_, ?_⟩, ?_, ?_, ?_, ?_⟩
  · rw [miller_rabin_prob_irrel prob probFalse n MILLER_RABIN_DEFAULT_ROUNDS
      MILLER_RABIN_DEFAULT_ROUNDS (by omega), key.1, isPrimeTrial_iff]
  · rw [baillie_psw_prob_irrel prob probFalse n (by omega), key.2,
      isPrimeTrial_iff]
  · rw [miller_rabin_prob_irrel prob probFalse 561 MILLER_RABIN_DEFAULT_ROUNDS
      MILLER_RABIN_DEFAULT_ROUNDS (by omega)]
    decide
  · rw [baillie_psw_prob_irrel prob probFalse 561 (by omega)]
    decide
  · rw [miller_rabin_prob_irrel prob probFalse 982451653
      MILLER_RABIN_DEFAULT_ROUNDS MILLER_RABIN_DEFAULT_ROUNDS (by omega)]
    decide
  · rw [baillie_psw_prob_irrel prob probFalse 982451653 (by omega)]
    decide

/-- C3 (witness): both tests accept the prime 97. -/
theorem miller_rabin_baillie_psw_agree_witness :
    miller_rabin probFalse 97 MILLER_RABIN_DEFAULT_ROUNDS = true ∧
    baillie_psw probFalse 97 = true :=
  ⟨((miller_rabin_baillie_psw_agree_with_primality probFalse 97
      (by norm_num)).1.1).mpr (by norm_num),
   ((miller_rabin_baillie_psw_agree_with_primality probFalse 97
      (by norm_num)).1.2).mpr (by norm_num)⟩
